import Mathlib

/-!
Verification of the orchestration and simulation core of the ORBIT
(Offshore Renewables Balance-of-system and Installation Tool) repository.
The repository snapshot contains only documentation, example notebooks and
configuration data; the Python modules (ORBIT/core, ORBIT/manager.py,
ORBIT/phases) that implement the core are absent, so every definition below
is modelled from the specification text and settled against that model.
-/

namespace Orbit

/-- Modelled from the spec: dot-paths such as "site.depth" address nested
configuration keys (§3 Data Model); a dot-path is a list of key strings.
The implementing module ORBIT/phases/base.py is missing from the tree. -/
abbrev DotPath := List String

/-- Modelled from the spec: a tree-shaped configuration mapping string keys
to scalars or nested mappings (§3 Data Model; the recursive JSON-like value
of §9).  Scalar payloads are integers; sequences are not needed here.
The implementing configuration utilities of ORBIT/core are missing. -/
inductive Config where
  | leaf : Int → Config
  | node : List (String × Config) → Config
deriving Repr

/-- First-match lookup of a key in an association list of entries. -/
def lookupKey : List (String × Config) → String → Option Config
  | [], _ => none
  | (k2, c) :: rest, k => if k2 = k then some c else lookupKey rest k

/-- Look one key up in a configuration; scalars hold no keys. -/
def getKey : Config → String → Option Config
  | .leaf _, _ => none
  | .node es, k => lookupKey es k

/-- Follow a dot-path through a configuration tree. -/
def getPath : Config → DotPath → Option Config
  | c, [] => some c
  | c, k :: rest =>
    match getKey c k with
    | some c2 => getPath c2 rest
    | none => none

/-- Error taxonomy of the core (spec §7); only the constructors the claims
need are modelled. -/
inductive OrbitError where
  | missingInputs : List DotPath → OrbitError
  | designCycle : OrbitError
deriving Repr, DecidableEq

/-- Modelled from the spec: `validate` "walks a list of dot-paths; any absent
path is collected (not failed fast on first miss)" (§4.1).  The walk keeps
the required list's order and keeps every absent path.  The implementing
method BasePhase.validate_config (ORBIT/phases/base.py) is missing. -/
def collectMissing (c : Config) : List DotPath → List DotPath
  | [] => []
  | p :: rest =>
    match getPath c p with
    | some _ => collectMissing c rest
    | none => p :: collectMissing c rest

/-- Modelled from the spec: `validate(config, required_keys)` returns unit or
raises `MissingInputs` "reported together as one error listing every missing
dot-path" (§4.1, §7).  The implementing method of ORBIT/phases/base.py is
missing from the tree. -/
def validate (c : Config) (required : List DotPath) : Except OrbitError Unit :=
  match collectMissing c required with
  | [] => .ok ()
  | ms => .error (.missingInputs ms)

theorem collectMissing_eq_filter (c : Config) (req : List DotPath) :
    collectMissing c req = req.filter (fun p => (getPath c p).isNone) := by
  induction req with
  | nil => rfl
  | cons p rest ih =>
    simp only [collectMissing, List.filter]
    cases h : getPath c p with
    | some v => simp [h, ih]
    | none => simp [h, ih]

theorem mem_collectMissing (c : Config) (req : List DotPath) (p : DotPath) :
    p ∈ collectMissing c req ↔ p ∈ req ∧ getPath c p = none := by
  rw [collectMissing_eq_filter]
  simp [List.mem_filter, Option.isNone_iff_eq_none]

/-- Claim C2: for every configuration and list of required dot-paths,
`validate` raises `MissingInputs` exactly when at least one required path is
absent, the single error lists exactly the set of absent dot-paths (all of
them, no false positives or negatives, at any nesting depth), and when no
path is absent `validate` returns without error. -/
theorem validate_missing_inputs_exact (c : Config) (req : List DotPath) :
    (∀ ms, validate c req = .error (.missingInputs ms) →
      ∀ p, p ∈ ms ↔ p ∈ req ∧ getPath c p = none) ∧
    ((∃ p ∈ req, getPath c p = none) ↔
      ∃ ms, validate c req = .error (.missingInputs ms)) ∧
    ((∀ p ∈ req, getPath c p ≠ none) → validate c req = .ok ()) := by
  refine ⟨?_, ?_, ?_⟩
  · intro ms hms p
    unfold validate at hms
    cases h : collectMissing c req with
    | nil => rw [h] at hms; exact absurd hms (by simp)
    | cons q qs =>
      rw [h] at hms
      have : ms = q :: qs := by
        have := hms
        simp only [Except.error.injEq, OrbitError.missingInputs.injEq] at this
        exact this.symm
      rw [this, ← h, mem_collectMissing]
  · constructor
    · rintro ⟨p, hp, hnone⟩
      have hmem : p ∈ collectMissing c req :=
        (mem_collectMissing c req p).mpr ⟨hp, hnone⟩
      refine ⟨collectMissing c req, ?_⟩
      unfold validate
      cases h : collectMissing c req with
      | nil => rw [h] at hmem; exact absurd hmem (by simp)
      | cons q qs => simp [← h]
    · rintro ⟨ms, hms⟩
      unfold validate at hms
      cases h : collectMissing c req with
      | nil => rw [h] at hms; exact absurd hms (by simp)
      | cons q qs =>
        have : q ∈ collectMissing c req := by rw [h]; exact List.mem_cons_self q qs
        rcases (mem_collectMissing c req q).mp this with ⟨hq, hnone⟩
        exact ⟨q, hq, hnone⟩
  · intro hall
    unfold validate
    cases h : collectMissing c req with
    | nil => rfl
    | cons q qs =>
      have : q ∈ collectMissing c req := by rw [h]; exact List.mem_cons_self q qs
      rcases (mem_collectMissing c req q).mp this with ⟨hq, hnone⟩
      exact absurd hnone (hall q hq)

/-- Example configuration used by concrete witnesses: the site subtree of the
introductory example (site.depth and site.mean_windspeed removed in the
notebook's failing cell). -/
def exampleConfig : Config :=
  .node [("plant", .node [("num_turbines", .leaf 50)]),
         ("site", .node [("distance", .leaf 124)])]

/-- Witness for claim C2: on the introduction example with site.depth and
site.mean_windspeed removed, validate raises MissingInputs listing exactly
those two dot-paths, and its error-set characterization holds there. -/
theorem validate_missing_inputs_exact_witness :
    ∀ p, p ∈ [["site", "depth"], ["site", "mean_windspeed"]] ↔
      p ∈ [["plant", "num_turbines"], ["site", "depth"],
           ["site", "mean_windspeed"]] ∧ getPath exampleConfig p = none :=
  (validate_missing_inputs_exact exampleConfig
    [["plant", "num_turbines"], ["site", "depth"], ["site", "mean_windspeed"]]).1
    [["site", "depth"], ["site", "mean_windspeed"]] (by rfl)

mutual

/-- Modelled from the spec: `merge(general, phase_namespace)` deep-merges
phase-specific override keys over the general configuration; "override always
wins at the leaf level; sibling keys not overridden are inherited unchanged"
(§4.1), "at any depth, merged key-by-key (not wholesale replacement)" (§3).
The implementing helper of ORBIT/core is missing from the tree. -/
def deepMerge : Config → Config → Config
  | _, .leaf v => .leaf v
  | .leaf _, .node os => .node os
  | .node gs, .node os =>
    .node (mergeEntries gs os ++
      os.filter (fun e => (lookupKey gs e.1).isNone))
termination_by g _ => sizeOf g

/-- Entry-wise half of the deep merge: every general entry is kept, its value
merged with the override entry of the same key when one exists. -/
def mergeEntries : List (String × Config) → List (String × Config) →
    List (String × Config)
  | [], _ => []
  | (k, gv) :: rest, os =>
    (k, match lookupKey os k with
        | some ov => deepMerge gv ov
        | none => gv) :: mergeEntries rest os
termination_by gs _ => sizeOf gs

end

theorem lookupKey_append (l1 l2 : List (String × Config)) (k : String) :
    lookupKey (l1 ++ l2) k =
      match lookupKey l1 k with
      | some c => some c
      | none => lookupKey l2 k := by
  induction l1 with
  | nil => simp [lookupKey]
  | cons e rest ih =>
    obtain ⟨k2, c2⟩ := e
    by_cases h : k2 = k
    · simp [lookupKey, h]
    · simp [lookupKey, h, ih]

theorem lookupKey_mergeEntries (gs os : List (String × Config)) (k : String) :
    lookupKey (mergeEntries gs os) k =
      match lookupKey gs k with
      | some gv =>
        some (match lookupKey os k with
              | some ov => deepMerge gv ov
              | none => gv)
      | none => none := by
  induction gs with
  | nil => simp [mergeEntries, lookupKey]
  | cons e rest ih =>
    obtain ⟨k2, gv⟩ := e
    by_cases h : k2 = k
    · simp [mergeEntries, lookupKey, h]
    · simp [mergeEntries, lookupKey, h, ih]

theorem lookupKey_filter_of_keyKept (os : List (String × Config))
    (p : String × Config → Bool) (k : String)
    (h : ∀ e ∈ os, e.1 = k → p e = true) :
    lookupKey (os.filter p) k = lookupKey os k := by
  induction os with
  | nil => simp
  | cons e rest ih =>
    obtain ⟨k2, c2⟩ := e
    by_cases hk : k2 = k
    · subst hk
      have hp : p (k2, c2) = true := h (k2, c2) (List.mem_cons_self _ _) rfl
      simp [List.filter, hp, lookupKey]
    · have ih2 := ih (fun e he hk2 => h e (List.mem_cons_of_mem _ he) hk2)
      cases hp : p (k2, c2) with
      | true => simp [List.filter, hp, lookupKey, hk, ih2]
      | false => simp [List.filter, hp, lookupKey, hk, ih2]

theorem deepMerge_leaf_right (g : Config) (v : Int) :
    deepMerge g (.leaf v) = .leaf v := by
  cases g <;> simp [deepMerge]

theorem deepMerge_leaf_left (w : Int) (os : List (String × Config)) :
    deepMerge (.leaf w) (.node os) = .node os := by
  simp [deepMerge]

theorem deepMerge_node_node (gs os : List (String × Config)) :
    deepMerge (.node gs) (.node os) =
      .node (mergeEntries gs os ++
        os.filter (fun e => (lookupKey gs e.1).isNone)) := by
  simp [deepMerge]

theorem getKey_deepMerge_node (gs os : List (String × Config)) (k : String) :
    getKey (deepMerge (.node gs) (.node os)) k =
      match lookupKey gs k with
      | some gv =>
        some (match lookupKey os k with
              | some ov => deepMerge gv ov
              | none => gv)
      | none => lookupKey os k := by
  rw [deepMerge_node_node]
  show lookupKey (mergeEntries gs os ++
      os.filter (fun e => (lookupKey gs e.1).isNone)) k = _
  rw [lookupKey_append, lookupKey_mergeEntries]
  cases hg : lookupKey gs k with
  | some gv => simp
  | none =>
    simp only
    exact lookupKey_filter_of_keyKept os _ k
      (fun e _ he => by simp [he, hg])

/-- Override values are found at any depth: when the override tree defines a
leaf at a path, the merged tree defines the same leaf there. -/
theorem getPath_deepMerge_of_override (path : DotPath) :
    ∀ (g o : Config) (v : Int), getPath o path = some (.leaf v) →
      getPath (deepMerge g o) path = some (.leaf v) := by
  induction path with
  | nil =>
    intro g o v h
    simp only [getPath, Option.some.injEq] at h
    subst h
    rw [deepMerge_leaf_right]
    rfl
  | cons k rest ih =>
    intro g o v h
    cases o with
    | leaf w => simp [getPath, getKey] at h
    | node os =>
      simp only [getPath, getKey] at h
      cases ho : lookupKey os k with
      | none => rw [ho] at h; exact absurd h (by simp)
      | some ov =>
        rw [ho] at h
        change getPath ov rest = some (.leaf v) at h
        cases g with
        | leaf w =>
          rw [deepMerge_leaf_left]
          simp [getPath, getKey, ho, h]
        | node gs =>
          simp only [getPath, getKey_deepMerge_node, ho]
          cases hg : lookupKey gs k with
          | none => simpa [getPath, getKey, ho] using h
          | some gv => simpa using ih gv ov v h

/-- Along a path, the tree never presents a scalar at a proper point of the
path (so a deeper lookup is not cut off by a leaf). -/
def noLeafCut : Config → DotPath → Bool
  | _, [] => true
  | .leaf _, _ :: _ => false
  | .node es, k :: rest =>
    match lookupKey es k with
    | some c2 => noLeafCut c2 rest
    | none => true

/-- Sibling keys not overridden are inherited unchanged: where the override
tree is silent along a path (and does not cut it with a scalar), the merged
tree agrees with the general tree. -/
theorem getPath_deepMerge_of_silent (path : DotPath) :
    ∀ (g o : Config), getPath o path = none → noLeafCut o path = true →
      getPath (deepMerge g o) path = getPath g path := by
  induction path with
  | nil => intro g o h _; simp [getPath] at h
  | cons k rest ih =>
    intro g o h hcut
    cases o with
    | leaf w => simp [noLeafCut] at hcut
    | node os =>
      simp only [getPath, getKey] at h
      simp only [noLeafCut] at hcut
      cases g with
      | leaf w =>
        rw [deepMerge_leaf_left]
        cases ho : lookupKey os k with
        | none => simp [getPath, getKey, ho]
        | some ov =>
          rw [ho] at h
          change getPath ov rest = none at h
          simp [getPath, getKey, ho, h]
      | node gs =>
        simp only [getPath, getKey_deepMerge_node]
        cases hg : lookupKey gs k with
        | none =>
          simp only
          cases ho : lookupKey os k with
          | none => simp [getPath, getKey, hg]
          | some ov =>
            rw [ho] at h
            change getPath ov rest = none at h
            simp [getPath, getKey, hg, h]
        | some gv =>
          simp only
          cases ho : lookupKey os k with
          | none => simp [getPath, getKey, hg]
          | some ov =>
            rw [ho] at h
            change getPath ov rest = none at h
            rw [ho] at hcut
            change noLeafCut ov rest = true at hcut
            simp [getPath, getKey, hg, ih gv ov h hcut]

/-- Remove the listed registered phase names from the top level of a
configuration: the general configuration handed to a phase does not carry any
phase namespace. -/
def removeKeys (phaseNames : List String) : Config → Config
  | .leaf v => .leaf v
  | .node es => .node (es.filter (fun e => !phaseNames.contains e.1))

/-- Replace (or append) the value of one top-level key. -/
def setEntries : List (String × Config) → String → Config →
    List (String × Config)
  | [], k, v => [(k, v)]
  | (k2, c2) :: rest, k, v =>
    if k2 = k then (k, v) :: rest else (k2, c2) :: setEntries rest k v

/-- Replace (or append) one top-level key of a configuration. -/
def setKey (c : Config) (k : String) (v : Config) : Config :=
  match c with
  | .leaf w => .leaf w
  | .node es => .node (setEntries es k v)

/-- Modelled from the spec: the effective configuration a phase sees is the
general configuration (phase namespaces stripped) deep-merged under the
phase's own namespace override, when one is present (§3, §4.1).  The
implementing ProjectManager.create_config_for_phase is missing from the
tree. -/
def effectiveConfig (phaseNames : List String) (c : Config) (p : String) :
    Config :=
  match getKey c p with
  | some ns => deepMerge (removeKeys phaseNames c) ns
  | none => removeKeys phaseNames c

theorem lookupKey_filter_of_keyDropped (es : List (String × Config))
    (p : String × Config → Bool) (k : String)
    (h : ∀ c, p (k, c) = false) :
    lookupKey (es.filter p) k = none := by
  induction es with
  | nil => rfl
  | cons e rest ih =>
    obtain ⟨k2, c2⟩ := e
    cases hp : p (k2, c2) with
    | true =>
      have hk : k2 ≠ k := by
        intro hk2
        subst hk2
        rw [h c2] at hp
        exact absurd hp (by simp)
      simp [List.filter_cons, hp, lookupKey, hk, ih]
    | false => simp [List.filter_cons, hp, ih]

theorem getKey_removeKeys_of_mem (phaseNames : List String) (c : Config)
    (p : String) (hp : p ∈ phaseNames) :
    getKey (removeKeys phaseNames c) p = none := by
  cases c with
  | leaf v => rfl
  | node es =>
    exact lookupKey_filter_of_keyDropped es _ p (fun c2 => by simp [hp])

theorem lookupKey_setEntries_ne (es : List (String × Config)) (p q : String)
    (ns : Config) (hne : q ≠ p) :
    lookupKey (setEntries es p ns) q = lookupKey es q := by
  induction es with
  | nil => simp [setEntries, lookupKey, Ne.symm hne]
  | cons e rest ih =>
    obtain ⟨k2, c2⟩ := e
    by_cases hk : k2 = p
    · subst hk
      simp [setEntries, lookupKey, Ne.symm hne]
    · simp [setEntries, hk, lookupKey, ih]

theorem filter_setEntries_of_dropped (es : List (String × Config))
    (p : String × Config → Bool) (k : String) (ns : Config)
    (h : ∀ c, p (k, c) = false) :
    (setEntries es k ns).filter p = es.filter p := by
  induction es with
  | nil => simp [setEntries, List.filter_cons, h ns]
  | cons e rest ih =>
    obtain ⟨k2, c2⟩ := e
    by_cases hk : k2 = k
    · subst hk
      simp [setEntries, List.filter_cons, h ns, h c2]
    · simp only [setEntries, if_neg hk]
      cases hp : p (k2, c2) with
      | true => simp [List.filter_cons, hp, ih]
      | false => simp [List.filter_cons, hp, ih]

theorem removeKeys_setKey (phaseNames : List String) (c : Config)
    (p : String) (ns : Config) (hp : p ∈ phaseNames) :
    removeKeys phaseNames (setKey c p ns) = removeKeys phaseNames c := by
  cases c with
  | leaf v => rfl
  | node es =>
    show Config.node _ = Config.node _
    rw [filter_setEntries_of_dropped es _ p ns (fun c2 => by simp [hp])]

theorem getKey_setKey_ne (c : Config) (p q : String) (ns : Config)
    (hne : q ≠ p) : getKey (setKey c p ns) q = getKey c q := by
  cases c with
  | leaf v => rfl
  | node es => exact lookupKey_setEntries_ne es p q ns hne

/-- Claim C5: a phase name used as a top-level key is a namespace override:
the effective configuration of that phase prefers the namespace's values at
any nesting depth, sibling keys not overridden are inherited unchanged
(key-by-key merge, not wholesale replacement), and the namespace's values
appear neither in the stripped general configuration nor in the effective
configuration of any other phase. -/
theorem phase_namespace_override (phaseNames : List String) (c ns : Config)
    (p q : String) (path : DotPath) (v : Int) :
    (getKey c p = some ns → getPath ns path = some (.leaf v) →
      getPath (effectiveConfig phaseNames c p) path = some (.leaf v)) ∧
    (getKey c p = some ns → getPath ns path = none →
      noLeafCut ns path = true →
      getPath (effectiveConfig phaseNames c p) path =
        getPath (removeKeys phaseNames c) path) ∧
    (p ∈ phaseNames → getKey (removeKeys phaseNames c) p = none) ∧
    (p ∈ phaseNames → q ≠ p →
      effectiveConfig phaseNames (setKey c p ns) q =
        effectiveConfig phaseNames c q) := by
  refine ⟨?_, ?_, ?_, ?_⟩
  · intro hns hleaf
    unfold effectiveConfig
    rw [hns]
    exact getPath_deepMerge_of_override path _ ns v hleaf
  · intro hns hnone hcut
    unfold effectiveConfig
    rw [hns]
    exact getPath_deepMerge_of_silent path _ ns hnone hcut
  · intro hp
    exact getKey_removeKeys_of_mem phaseNames c p hp
  · intro hp hne
    unfold effectiveConfig
    rw [getKey_setKey_ne c p q ns hne, removeKeys_setKey phaseNames c p ns hp]

/-- Example project configuration with a namespace override for the
monopile installation phase, as in the phase-specific tutorial. -/
def nsExampleConfig : Config :=
  .node [("site", .node [("depth", .leaf 20), ("distance", .leaf 50)]),
         ("MonopileInstallation", .node [("site", .node [("depth", .leaf 10)])]),
         ("TurbineInstallation", .node [])]

/-- Namespace override used by the C5 witness. -/
def nsExampleNamespace : Config := .node [("site", .node [("depth", .leaf 10)])]

/-- Witness for claim C5: in a concrete project configuration, the monopile
phase sees the overridden site.depth, inherits the sibling site.distance
unchanged, its namespace is absent from the stripped general configuration,
and the turbine phase's effective configuration ignores the monopile
namespace. -/
theorem phase_namespace_override_witness :
    getPath (effectiveConfig ["MonopileInstallation", "TurbineInstallation"]
        nsExampleConfig "MonopileInstallation") ["site", "depth"] =
      some (.leaf 10) ∧
    getPath (effectiveConfig ["MonopileInstallation", "TurbineInstallation"]
        nsExampleConfig "MonopileInstallation") ["site", "distance"] =
      getPath (removeKeys ["MonopileInstallation", "TurbineInstallation"]
        nsExampleConfig) ["site", "distance"] ∧
    getKey (removeKeys ["MonopileInstallation", "TurbineInstallation"]
        nsExampleConfig) "MonopileInstallation" = none ∧
    effectiveConfig ["MonopileInstallation", "TurbineInstallation"]
        (setKey nsExampleConfig "MonopileInstallation" nsExampleNamespace)
        "TurbineInstallation" =
      effectiveConfig ["MonopileInstallation", "TurbineInstallation"]
        nsExampleConfig "TurbineInstallation" := by
  refine ⟨?_, ?_, ?_, ?_⟩
  · exact (phase_namespace_override _ nsExampleConfig nsExampleNamespace
      "MonopileInstallation" "TurbineInstallation" ["site", "depth"] 10).1
      (by rfl) (by rfl)
  · exact (phase_namespace_override _ nsExampleConfig nsExampleNamespace
      "MonopileInstallation" "TurbineInstallation" ["site", "distance"] 0).2.1
      (by rfl) (by rfl) (by rfl)
  · exact (phase_namespace_override _ nsExampleConfig nsExampleNamespace
      "MonopileInstallation" "TurbineInstallation" [] 0).2.2.1
      (by simp)
  · exact (phase_namespace_override _ nsExampleConfig nsExampleNamespace
      "MonopileInstallation" "TurbineInstallation" [] 0).2.2.2
      (by simp) (by simp)

mutual

/-- Modelled from the spec: after a Design phase completes its
`design_result` is merged into the shared configuration "only where the
project does not already define that key explicitly — explicit user values
always win over design-phase-computed defaults" (§4.5).  The first argument
(the existing configuration) wins at every leaf; the implementing merge in
ORBIT/manager.py is missing from the tree. -/
def mergeKeep : Config → Config → Config
  | .leaf v, _ => .leaf v
  | .node cs, .leaf _ => .node cs
  | .node cs, .node rs =>
    .node (keepEntries cs rs ++
      rs.filter (fun e => (lookupKey cs e.1).isNone))
termination_by c _ => sizeOf c

/-- Entry-wise half of the keep-merge: every existing entry is kept, its
value recursively keep-merged with the design entry of the same key. -/
def keepEntries : List (String × Config) → List (String × Config) →
    List (String × Config)
  | [], _ => []
  | (k, cv) :: rest, rs =>
    (k, match lookupKey rs k with
        | some rv => mergeKeep cv rv
        | none => cv) :: keepEntries rest rs
termination_by cs _ => sizeOf cs

end

theorem mergeKeep_leaf_left (v : Int) (r : Config) :
    mergeKeep (.leaf v) r = .leaf v := by
  cases r <;> simp [mergeKeep]

theorem mergeKeep_node_leaf (cs : List (String × Config)) (w : Int) :
    mergeKeep (.node cs) (.leaf w) = .node cs := by
  simp [mergeKeep]

theorem mergeKeep_node_node (cs rs : List (String × Config)) :
    mergeKeep (.node cs) (.node rs) =
      .node (keepEntries cs rs ++
        rs.filter (fun e => (lookupKey cs e.1).isNone)) := by
  simp [mergeKeep]

theorem lookupKey_keepEntries (cs rs : List (String × Config)) (k : String) :
    lookupKey (keepEntries cs rs) k =
      match lookupKey cs k with
      | some cv =>
        some (match lookupKey rs k with
              | some rv => mergeKeep cv rv
              | none => cv)
      | none => none := by
  induction cs with
  | nil => simp [keepEntries, lookupKey]
  | cons e rest ih =>
    obtain ⟨k2, cv⟩ := e
    by_cases h : k2 = k
    · simp [keepEntries, lookupKey, h]
    · simp [keepEntries, lookupKey, h, ih]

theorem getKey_mergeKeep_node (cs rs : List (String × Config)) (k : String) :
    getKey (mergeKeep (.node cs) (.node rs)) k =
      match lookupKey cs k with
      | some cv =>
        some (match lookupKey rs k with
              | some rv => mergeKeep cv rv
              | none => cv)
      | none => lookupKey rs k := by
  rw [mergeKeep_node_node]
  show lookupKey (keepEntries cs rs ++
      rs.filter (fun e => (lookupKey cs e.1).isNone)) k = _
  rw [lookupKey_append, lookupKey_keepEntries]
  cases hg : lookupKey cs k with
  | some cv => simp
  | none =>
    simp only
    exact lookupKey_filter_of_keyKept rs _ k (fun e _ he => by simp [he, hg])

/-- Explicit values survive the keep-merge at any depth. -/
theorem getPath_mergeKeep_of_explicit (path : DotPath) :
    ∀ (c r : Config) (v : Int), getPath c path = some (.leaf v) →
      getPath (mergeKeep c r) path = some (.leaf v) := by
  induction path with
  | nil =>
    intro c r v h
    simp only [getPath, Option.some.injEq] at h
    subst h
    rw [mergeKeep_leaf_left]
    rfl
  | cons k rest ih =>
    intro c r v h
    cases c with
    | leaf w => simp [getPath, getKey] at h
    | node cs =>
      simp only [getPath, getKey] at h
      cases hc : lookupKey cs k with
      | none => rw [hc] at h; exact absurd h (by simp)
      | some cv =>
        rw [hc] at h
        change getPath cv rest = some (.leaf v) at h
        cases r with
        | leaf w => rw [mergeKeep_node_leaf]; simp [getPath, getKey, hc, h]
        | node rs =>
          simp only [getPath, getKey_mergeKeep_node, hc]
          cases hr : lookupKey rs k with
          | none => simpa using h
          | some rv => simpa using ih cv rv v h

/-- Where neither tree defines a path (and the existing tree does not cut it
with a scalar), the keep-merge does not define it either. -/
theorem getPath_mergeKeep_of_bothNone (path : DotPath) :
    ∀ (c r : Config), getPath c path = none → getPath r path = none →
      noLeafCut c path = true → getPath (mergeKeep c r) path = none := by
  induction path with
  | nil => intro c r h _ _; simp [getPath] at h
  | cons k rest ih =>
    intro c r hc hr hcut
    cases c with
    | leaf w => simp [noLeafCut] at hcut
    | node cs =>
      simp only [getPath, getKey] at hc
      simp only [noLeafCut] at hcut
      cases r with
      | leaf w =>
        rw [mergeKeep_node_leaf]
        simp only [getPath, getKey]
        exact hc
      | node rs =>
        simp only [getPath, getKey] at hr
        simp only [getPath, getKey_mergeKeep_node]
        cases hlc : lookupKey cs k with
        | none =>
          simp only
          cases hlr : lookupKey rs k with
          | none => simp
          | some rv =>
            rw [hlr] at hr
            change getPath rv rest = none at hr
            simpa using hr
        | some cv =>
          rw [hlc] at hc
          change getPath cv rest = none at hc
          rw [hlc] at hcut
          change noLeafCut cv rest = true at hcut
          simp only
          cases hlr : lookupKey rs k with
          | none => simpa using hc
          | some rv =>
            rw [hlr] at hr
            change getPath rv rest = none at hr
            simpa using ih cv rv hc hr hcut

/-- The keep-merge never introduces a scalar cut along a path neither
argument cuts. -/
theorem noLeafCut_mergeKeep (path : DotPath) :
    ∀ (c r : Config), noLeafCut c path = true → noLeafCut r path = true →
      noLeafCut (mergeKeep c r) path = true := by
  induction path with
  | nil => intro c r _ _; cases mergeKeep c r <;> rfl
  | cons k rest ih =>
    intro c r hc hr
    cases c with
    | leaf w => simp [noLeafCut] at hc
    | node cs =>
      cases r with
      | leaf w => simp [noLeafCut] at hr
      | node rs =>
        simp only [noLeafCut] at hc hr
        rw [mergeKeep_node_node]
        simp only [noLeafCut]
        rw [show lookupKey (keepEntries cs rs ++
            rs.filter (fun e => (lookupKey cs e.1).isNone)) k =
            getKey (mergeKeep (.node cs) (.node rs)) k by
          rw [mergeKeep_node_node]; rfl]
        rw [getKey_mergeKeep_node]
        cases hlc : lookupKey cs k with
        | none =>
          simp only
          cases hlr : lookupKey rs k with
          | none => rfl
          | some rv =>
            rw [hlr] at hr
            change noLeafCut rv rest = true at hr
            simpa using hr
        | some cv =>
          rw [hlc] at hc
          change noLeafCut cv rest = true at hc
          simp only
          cases hlr : lookupKey rs k with
          | none => simpa using hc
          | some rv =>
            rw [hlr] at hr
            change noLeafCut rv rest = true at hr
            simpa using ih cv rv hc hr

/-- Where the existing tree is silent along a path (and does not cut it),
the keep-merge takes the design result's value there. -/
theorem getPath_mergeKeep_of_produced (path : DotPath) :
    ∀ (c r x : Config), getPath c path = none → noLeafCut c path = true →
      getPath r path = some x → getPath (mergeKeep c r) path = some x := by
  induction path with
  | nil => intro c r x h _ _; simp [getPath] at h
  | cons k rest ih =>
    intro c r x hc hcut hr
    cases c with
    | leaf w => simp [noLeafCut] at hcut
    | node cs =>
      cases r with
      | leaf w => simp [getPath, getKey] at hr
      | node rs =>
        simp only [getPath, getKey] at hc hr
        simp only [noLeafCut] at hcut
        simp only [getPath, getKey_mergeKeep_node]
        cases hlr : lookupKey rs k with
        | none => rw [hlr] at hr; exact absurd hr (by simp)
        | some rv =>
          rw [hlr] at hr
          change getPath rv rest = some x at hr
          cases hlc : lookupKey cs k with
          | none => simpa using hr
          | some cv =>
            rw [hlc] at hc
            change getPath cv rest = none at hc
            rw [hlc] at hcut
            change noLeafCut cv rest = true at hcut
            simpa using ih cv rv x hc hcut hr

/-- Modelled from the spec: `run()` merges each completed Design phase's
design_result into the shared configuration in execution order (§4.5).  The
implementing loop of ProjectManager.run is missing from the tree. -/
def mergeDesignResults (config : Config) (results : List Config) : Config :=
  results.foldl mergeKeep config

theorem mergeDesignResults_of_explicit (results : List Config) :
    ∀ (config : Config) (p : DotPath) (v : Int),
      getPath config p = some (.leaf v) →
      getPath (mergeDesignResults config results) p = some (.leaf v) := by
  induction results with
  | nil => intro config p v h; exact h
  | cons r rest ih =>
    intro config p v h
    exact ih (mergeKeep config r) p v
      (getPath_mergeKeep_of_explicit p config r v h)

/-- Claim C4: the orchestrator merges design results into the shared
configuration only where the project does not already define the key
(explicit user values always survive), and when several Design phases
produce the same key the first producer in execution order wins and later
producers are skipped for that key. -/
theorem design_result_merge_policy (config : Config)
    (results pre post : List Config) (ri : Config) (p : DotPath) (v w : Int) :
    (getPath config p = some (.leaf w) →
      getPath (mergeDesignResults config results) p = some (.leaf w)) ∧
    (results = pre ++ ri :: post →
      getPath config p = none → noLeafCut config p = true →
      (∀ r ∈ pre, getPath r p = none ∧ noLeafCut r p = true) →
      getPath ri p = some (.leaf v) →
      getPath (mergeDesignResults config results) p = some (.leaf v)) := by
  constructor
  · intro h
    exact mergeDesignResults_of_explicit results config p w h
  · intro hsplit hnone hcut hpre hri
    subst hsplit
    induction pre generalizing config with
    | nil =>
      simp only [List.nil_append, mergeDesignResults, List.foldl_cons]
      exact mergeDesignResults_of_explicit post (mergeKeep config ri) p v
        (getPath_mergeKeep_of_produced p config ri (.leaf v) hnone hcut hri)
    | cons r0 rest ih =>
      simp only [List.cons_append, mergeDesignResults, List.foldl_cons]
      have h0 := hpre r0 (List.mem_cons_self _ _)
      exact ih (mergeKeep config r0)
        (getPath_mergeKeep_of_bothNone p config r0 hnone h0.1 hcut)
        (noLeafCut_mergeKeep p config r0 hcut h0.2)
        (fun r hr => hpre r (List.mem_cons_of_mem _ hr))

/-- Design result examples for the C4 witness: the project already fixes
monopile length 80; design phase one produces length 100 and diameter 6;
design phase two produces diameter 7 and mass 500. -/
def c4Config : Config := .node [("monopile", .node [("length", .leaf 80)])]

/-- First design result of the C4 witness. -/
def c4ResultOne : Config :=
  .node [("monopile", .node [("length", .leaf 100), ("diameter", .leaf 6)])]

/-- Second design result of the C4 witness. -/
def c4ResultTwo : Config :=
  .node [("monopile", .node [("diameter", .leaf 7), ("mass", .leaf 500)])]

/-- Witness for claim C4: the explicit monopile.length 80 survives both
design merges, and monopile.diameter takes the first producer's value 6,
the second producer being skipped for that key. -/
theorem design_result_merge_policy_witness :
    getPath (mergeDesignResults c4Config [c4ResultOne, c4ResultTwo])
        ["monopile", "length"] = some (.leaf 80) ∧
    getPath (mergeDesignResults c4Config [c4ResultOne, c4ResultTwo])
        ["monopile", "diameter"] = some (.leaf 6) := by
  constructor
  · exact (design_result_merge_policy c4Config [c4ResultOne, c4ResultTwo]
      [] [c4ResultTwo] c4ResultOne ["monopile", "length"] 0 80).1 (by rfl)
  · exact (design_result_merge_policy c4Config [c4ResultOne, c4ResultTwo]
      [] [c4ResultTwo] c4ResultOne ["monopile", "diameter"] 6 0).2
      (by rfl) (by rfl) (by rfl) (by simp) (by rfl)

/-- Modelled from the spec: a registered phase's statically declared
configuration contract — its required input dot-paths and, for a Design
phase, the output keys its design_result produces (§3 Expected-input schema,
§4.1 compile_schema).  The implementing phase classes (expected_config and
output_config attributes) are missing from the tree. -/
structure PhaseDecl where
  name : String
  isDesign : Bool
  inputs : List DotPath
  outputs : List DotPath
deriving Repr, DecidableEq

/-- All output keys declared by the Design phases of a phase list. -/
def designOutputs (phases : List PhaseDecl) : List DotPath :=
  (phases.filter (fun ph => ph.isDesign)).flatMap (fun ph => ph.outputs)

/-- Modelled from the spec: `compile_input_dict(phases)` unions the expected
inputs of the named phases; keys a Design phase in the list declares as
outputs are no longer required (§4.5, §8 round-trip property).  The
implementing ProjectManager.compile_input_dict is missing from the tree. -/
def compile_input_dict (phases : List PhaseDecl) : List DotPath :=
  (phases.flatMap (fun ph => ph.inputs)).filter
    (fun k => decide (k ∉ designOutputs phases))

theorem mem_compile_input_dict (phases : List PhaseDecl) (k : DotPath) :
    k ∈ compile_input_dict phases ↔
      (∃ ph ∈ phases, k ∈ ph.inputs) ∧ k ∉ designOutputs phases := by
  simp [compile_input_dict, List.mem_filter, List.mem_flatMap]

/-- Claim C3: for every phase list containing a Design phase (together with
any Installation phases), the compiled input schema no longer requires any
key the Design phase declares as an output, while every input the Design
phase itself declares (not supplied by some Design phase of the list)
remains required. -/
theorem compile_input_dict_round_trip (phases : List PhaseDecl)
    (D : PhaseDecl) (hD : D ∈ phases) (hdesign : D.isDesign = true)
    (hdisj : ∀ k ∈ D.inputs, k ∉ designOutputs phases) :
    (∀ k ∈ D.outputs, k ∉ compile_input_dict phases) ∧
    (∀ k ∈ D.inputs, k ∈ compile_input_dict phases) := by
  constructor
  · intro k hk hmem
    rcases (mem_compile_input_dict phases k).mp hmem with ⟨-, hnot⟩
    exact hnot (by
      simp only [designOutputs, List.mem_flatMap]
      exact ⟨D, by simp [List.mem_filter, hD, hdesign], hk⟩)
  · intro k hk
    exact (mem_compile_input_dict phases k).mpr
      ⟨⟨D, hD, hk⟩, hdisj k hk⟩

/-- Monopile design phase declaration used by the C3 witness. -/
def c3Design : PhaseDecl :=
  { name := "MonopileDesign", isDesign := true,
    inputs := [["site", "depth"], ["site", "mean_windspeed"]],
    outputs := [["monopile", "length"], ["monopile", "diameter"]] }

/-- Monopile installation phase declaration used by the C3 witness. -/
def c3Install : PhaseDecl :=
  { name := "MonopileInstallation", isDesign := false,
    inputs := [["monopile", "length"], ["site", "distance"]],
    outputs := [] }

/-- Witness for claim C3: for the MonopileDesign + MonopileInstallation
pair, the compiled schema does not require the design outputs and does
require the design phase's own inputs. -/
theorem compile_input_dict_round_trip_witness :
    (∀ k ∈ c3Design.outputs, k ∉ compile_input_dict [c3Design, c3Install]) ∧
    (∀ k ∈ c3Design.inputs, k ∈ compile_input_dict [c3Design, c3Install]) :=
  compile_input_dict_round_trip [c3Design, c3Install] c3Design
    (by decide) (by decide) (by decide)

/-- Modelled from the spec: the recorded results of one completed
installation phase — procurement (system) CapEx and simulated installation
CapEx (§3 Project aggregate).  The implementing InstallPhase class is
missing from the tree. -/
structure InstallPhaseResult where
  name : String
  system_capex : ℚ
  installation_capex : ℚ
deriving Repr, DecidableEq

/-- Modelled from the spec: the aggregate of a valid completed project
(§3 Project aggregate, §4.5 Aggregation); ProjectManager's aggregation is
missing from the tree. -/
structure ProjectResult where
  phases : List InstallPhaseResult
  turbine_capex : ℚ
  soft_capex : ℚ
  project_capex : ℚ
deriving Repr, DecidableEq

/-- Total procurement CapEx: the sum over installation phases. -/
def system_capex (pr : ProjectResult) : ℚ :=
  (pr.phases.map (fun p => p.system_capex)).sum

/-- Total simulated installation CapEx: the sum over installation phases. -/
def installation_capex (pr : ProjectResult) : ℚ :=
  (pr.phases.map (fun p => p.installation_capex)).sum

/-- Balance-of-system CapEx (§4.5). -/
def bos_capex (pr : ProjectResult) : ℚ :=
  system_capex pr + installation_capex pr

/-- Total CapEx: turbine + BOS + soft + project (§3, §4.5). -/
def total_capex (pr : ProjectResult) : ℚ :=
  pr.turbine_capex + bos_capex pr + pr.soft_capex + pr.project_capex

/-- Modelled from the spec: `capex_breakdown`, the mapping of named cost
category to dollar value (§3 invariant; changelog 1.0.2 introduced
ProjectManager.capex_breakdown, whose implementation is missing from the
tree): one procurement entry per phase plus installation, turbine, soft and
project categories. -/
def capex_breakdown (pr : ProjectResult) : List (String × ℚ) :=
  pr.phases.map (fun p => (p.name, p.system_capex)) ++
    [("Installation", installation_capex pr),
     ("Turbine", pr.turbine_capex),
     ("Soft", pr.soft_capex),
     ("Project", pr.project_capex)]

/-- Claim C6: for every valid completed project the values of
capex_breakdown sum exactly to total_capex, hence in particular within the
1e-6 relative tolerance. -/
theorem capex_breakdown_sums_to_total (pr : ProjectResult) :
    ((capex_breakdown pr).map (fun e => e.2)).sum = total_capex pr ∧
    |((capex_breakdown pr).map (fun e => e.2)).sum - total_capex pr| ≤
      (1 / 1000000) * |total_capex pr| := by
  have h : ((capex_breakdown pr).map (fun e => e.2)).sum = total_capex pr := by
    simp only [capex_breakdown, List.map_append, List.sum_append,
      List.map_map, total_capex, bos_capex, system_capex, installation_capex]
    have hmap : ((fun e : String × ℚ => e.2) ∘
        fun p : InstallPhaseResult => (p.name, p.system_capex)) =
        fun p : InstallPhaseResult => p.system_capex := rfl
    rw [hmap]
    simp only [List.map_cons, List.map_nil, List.sum_cons, List.sum_nil]
    ring
  refine ⟨h, ?_⟩
  rw [h, sub_self, abs_zero]
  positivity

/-- Modelled from the spec: an installation-phase start specification is an
absolute weather-index offset or a tuple of another phase's name and a
fractional completion in [0,1] (§4.5; docs "Phase Start Dates").  The
implementing ProjectManager start handling is missing from the tree. -/
inductive StartSpec where
  | absolute : ℚ → StartSpec
  | dependent : String → ℚ → StartSpec
deriving Repr, DecidableEq

/-- Modelled from the spec: a deterministic installation phase for the
orchestrator — its name, its fixed task durations (hours) and its start
specification.  The implementing InstallPhase classes and the marmot
environment are missing from the tree. -/
structure ScheduledPhase where
  name : String
  tasks : List ℚ
  start : StartSpec
deriving Repr, DecidableEq

/-- Total simulated phase time of a deterministic phase: the sum of its task
durations (§3: total elapsed phase time). -/
def phaseTotalTime (ph : ScheduledPhase) : ℚ := ph.tasks.sum

/-- Find a named phase in the project's schedule. -/
def findPhase : List ScheduledPhase → String → Option ScheduledPhase
  | [], _ => none
  | ph :: rest, n => if ph.name = n then some ph else findPhase rest n

/-- Modelled from the spec: the orchestrator resolves the start of a phase
whose start is the tuple (A, f) to the time at which A's simulated time
reaches the fraction f of A's own total duration, namely A's start plus
f times A's total phase time (§4.5).  The implementing resolution in
ProjectManager.run_install_phase is missing from the tree. -/
def resolveStart (sched : List ScheduledPhase) (ph : ScheduledPhase) :
    Option ℚ :=
  match ph.start with
  | .absolute t => some t
  | .dependent a f =>
    match findPhase sched a with
    | some pa =>
      match pa.start with
      | .absolute t0 => some (t0 + f * phaseTotalTime pa)
      | .dependent _ _ => none
    | none => none

/-- Action log of one deterministic phase started at a given time: one entry
(phase name, start, duration) per task, back to back. -/
def phaseLog (n : String) : ℚ → List ℚ → List (String × ℚ × ℚ)
  | _, [] => []
  | t, d :: rest => (n, t, d) :: phaseLog n (t + d) rest

/-- Claim C7: when phase B's start is specified as the tuple (A, f) with
f in [0,1] and A starts at an absolute offset, B starts when A's simulated
time reaches the fraction f of A's own total duration, and B's first logged
action starts exactly at that instant. -/
theorem dependency_start_fraction (sched : List ScheduledPhase)
    (A B : ScheduledPhase) (aName : String) (f t0 d : ℚ) (rest : List ℚ)
    (hf0 : 0 ≤ f) (hf1 : f ≤ 1)
    (hA : findPhase sched aName = some A) (hA0 : A.start = .absolute t0)
    (hB : B.start = .dependent aName f) (hBtasks : B.tasks = d :: rest) :
    resolveStart sched B = some (t0 + f * phaseTotalTime A) ∧
    ∀ s, resolveStart sched B = some s →
      (phaseLog B.name s B.tasks).head? =
        some (B.name, t0 + f * phaseTotalTime A, d) := by
  have hres : resolveStart sched B = some (t0 + f * phaseTotalTime A) := by
    unfold resolveStart
    rw [hB]
    simp only [hA, hA0]
  refine ⟨hres, ?_⟩
  intro s hs
  rw [hres] at hs
  have : s = t0 + f * phaseTotalTime A := by
    simpa using hs.symm
  subst this
  rw [hBtasks]
  rfl

/-- Monopile installation phase of the C7 witness: deterministic, total
simulated time 1000 hours, started at offset 0. -/
def c7PhaseA : ScheduledPhase :=
  { name := "MonopileInstallation", tasks := [400, 600],
    start := .absolute 0 }

/-- Turbine installation phase of the C7 witness: starts when the monopile
phase is 50 percent complete. -/
def c7PhaseB : ScheduledPhase :=
  { name := "TurbineInstallation", tasks := [12, 6],
    start := .dependent "MonopileInstallation" (1 / 2) }

/-- Witness for claim C7: with offsets MonopileInstallation 0 and
TurbineInstallation (MonopileInstallation, 0.5) and a deterministic
monopile phase of total time 1000 hours, the turbine phase resolves to and
first acts at t = 500. -/
theorem dependency_start_fraction_witness :
    resolveStart [c7PhaseA, c7PhaseB] c7PhaseB = some 500 ∧
    (phaseLog c7PhaseB.name 500 c7PhaseB.tasks).head? =
      some (c7PhaseB.name, 500, 12) := by
  have h := dependency_start_fraction [c7PhaseA, c7PhaseB] c7PhaseA c7PhaseB
    "MonopileInstallation" (1 / 2) 0 12 [6]
    (by norm_num) (by norm_num) (by rfl) (by rfl) (by rfl) (by rfl)
  have htot : (0 : ℚ) + (1 / 2) * phaseTotalTime c7PhaseA = 500 := by
    simp [phaseTotalTime, c7PhaseA]
    norm_num
  constructor
  · rw [h.1, htot]
  · have h2 := h.2 ((0 : ℚ) + (1 / 2) * phaseTotalTime c7PhaseA) (by rw [h.1])
    rw [htot] at h2
    exact h2

/-- Modelled from the spec: vessel day rate and optional mobilization
settings from a vessel specification (§3 Agent; changelog 0.4.0 "Vessel
mobilization added to all vessels in all installation modules.  Defaults to
7 days at 50% day-rate").  The implementing Vessel class of ORBIT/core is
missing from the tree. -/
structure VesselSpecs where
  day_rate : ℚ
  mobilization_days : Option ℚ
  mobilization_mult : Option ℚ
deriving Repr, DecidableEq

/-- Mobilization duration in days: the configured value or the default 7. -/
def mobilizationDays (v : VesselSpecs) : ℚ := v.mobilization_days.getD 7

/-- Mobilization day-rate multiplier: the configured value or the default
one half. -/
def mobilizationMult (v : VesselSpecs) : ℚ := v.mobilization_mult.getD (1 / 2)

/-- Mobilization cost: days at the multiplied day rate. -/
def mobilizationCost (v : VesselSpecs) : ℚ :=
  mobilizationDays v * mobilizationMult v * v.day_rate

/-- One action-log row of a vessel: label, duration in hours, cost. -/
structure VesselAction where
  label : String
  hours : ℚ
  cost : ℚ
deriving Repr, DecidableEq

/-- Modelled from the spec: an agent's mobilization "is applied once at
first use" (§3 Agent); the vessel walks its task list and, before its first
task, logs a single mobilization action.  The implementing
Vessel.mobilize of ORBIT/core is missing from the tree. -/
def runVessel (v : VesselSpecs) : Bool → List (String × ℚ × ℚ) →
    List VesselAction
  | _, [] => []
  | true, (l, d, c) :: rest => ⟨l, d, c⟩ :: runVessel v true rest
  | false, (l, d, c) :: rest =>
    ⟨"Mobilize", 24 * mobilizationDays v, mobilizationCost v⟩ ::
      ⟨l, d, c⟩ :: runVessel v true rest

theorem runVessel_mobilized_no_mobilize (v : VesselSpecs)
    (tasks : List (String × ℚ × ℚ)) (hl : ∀ t ∈ tasks, t.1 ≠ "Mobilize") :
    ∀ a ∈ runVessel v true tasks, a.label ≠ "Mobilize" := by
  induction tasks with
  | nil => intro a ha; simp [runVessel] at ha
  | cons t rest ih =>
    obtain ⟨l, d, c⟩ := t
    intro a ha
    simp only [runVessel, List.mem_cons] at ha
    rcases ha with h1 | h2
    · subst h1
      exact hl (l, d, c) (List.mem_cons_self _ _)
    · exact ih (fun t ht => hl t (List.mem_cons_of_mem _ ht)) a h2

/-- Claim C10: for a vessel whose configuration specifies neither
mobilization_days nor mobilization_mult, exactly one mobilization action is
charged, at the vessel's first use, with duration 7 days (168 hours) and
cost equal to 7 days at 50 percent of the vessel's day rate. -/
theorem default_mobilization (v : VesselSpecs) (l0 : String) (d0 c0 : ℚ)
    (rest : List (String × ℚ × ℚ))
    (hdays : v.mobilization_days = none) (hmult : v.mobilization_mult = none)
    (hl : ∀ t ∈ (l0, d0, c0) :: rest, t.1 ≠ "Mobilize") :
    ((runVessel v false ((l0, d0, c0) :: rest)).filter
        (fun a => a.label = "Mobilize")).length = 1 ∧
    (runVessel v false ((l0, d0, c0) :: rest)).head? =
      some ⟨"Mobilize", 7 * 24, 7 * (1 / 2) * v.day_rate⟩ := by
  have hmob : (⟨"Mobilize", 24 * mobilizationDays v, mobilizationCost v⟩ :
      VesselAction) = ⟨"Mobilize", 7 * 24, 7 * (1 / 2) * v.day_rate⟩ := by
    simp [mobilizationDays, mobilizationMult, mobilizationCost, hdays, hmult]
    norm_num
  constructor
  · show (List.filter _
      (⟨"Mobilize", 24 * mobilizationDays v, mobilizationCost v⟩ ::
        ⟨l0, d0, c0⟩ :: runVessel v true rest)).length = 1
    have hno := runVessel_mobilized_no_mobilize v rest
      (fun t ht => hl t (List.mem_cons_of_mem _ ht))
    have hrest : (runVessel v true rest).filter
        (fun a => a.label = "Mobilize") = [] := by
      rw [List.filter_eq_nil_iff]
      intro a ha
      simp [hno a ha]
    have hl0 : l0 ≠ "Mobilize" := hl (l0, d0, c0) (List.mem_cons_self _ _)
    simp [List.filter_cons, hl0, hrest]
  · show (⟨"Mobilize", 24 * mobilizationDays v, mobilizationCost v⟩ ::
      ⟨l0, d0, c0⟩ :: runVessel v true rest).head? = _
    rw [hmob]
    rfl

/-- Witness for claim C10: a wind turbine installation vessel with day rate
180000 and no mobilization settings logs exactly one mobilization action,
first, lasting 7 days and costing 630000. -/
theorem default_mobilization_witness :
    ((runVessel ⟨180000, none, none⟩ false
        [("Drive Monopile", 12, 90000)]).filter
      (fun a => a.label = "Mobilize")).length = 1 ∧
    (runVessel ⟨180000, none, none⟩ false
        [("Drive Monopile", 12, 90000)]).head? =
      some ⟨"Mobilize", 7 * 24, 7 * (1 / 2) * (180000 : ℚ)⟩ :=
  default_mobilization ⟨180000, none, none⟩ "Drive Monopile" 12 90000 []
    (by rfl) (by rfl) (by decide)

/-- An interval of hours starting at s and of the given length on which the
weather constraint holds throughout. -/
def compliantWindow (wx : Nat → Bool) : Nat → Nat → Bool
  | _, 0 => true
  | s, len + 1 => wx s && compliantWindow wx (s + 1) len

/-- Modelled from the spec: advance from hour t to the next interval on
which the weather bound holds for the required length (§4.4 weather-gate
algorithm).  Search is bounded by fuel (the remaining weather series).  The
implementing waiting logic of the marmot environment is missing from the
tree. -/
def nextWindow (wx : Nat → Bool) (len : Nat) : Nat → Nat → Option Nat
  | 0, _ => none
  | fuel + 1, t =>
    if compliantWindow wx t len then some t
    else nextWindow wx len fuel (t + 1)

/-- Outcome of one executed task: scheduled start, end, and accrued cost. -/
structure TaskOutcome where
  startTime : Nat
  endTime : Nat
  cost : ℚ
deriving Repr, DecidableEq

/-- Modelled from the spec: a non-suspendable task whose weather constraint
is violated has its entire start delayed to the next compliant interval and
then executes without interruption, its cost covering the full nominal
duration (§4.4, changelog 0.4.0).  The implementing task logic of
ORBIT/core is missing from the tree. -/
def runNonSuspendable (wx : Nat → Bool) (rate : ℚ) (dur fuel t : Nat) :
    Option TaskOutcome :=
  match nextWindow wx dur fuel t with
  | some s => some ⟨s, s + dur, rate * dur⟩
  | none => none

/-- Modelled from the spec: a suspendable task pauses while the weather
bound is violated and resumes when it clears, accruing cost only for active
hours (§4.4).  Arguments: fuel bound, current hour, remaining active hours;
result: completion hour and accrued cost.  The implementing task logic of
ORBIT/core is missing from the tree. -/
def runSuspendable (wx : Nat → Bool) (rate : ℚ) :
    Nat → Nat → Nat → Option (Nat × ℚ)
  | _, t, 0 => some (t, 0)
  | 0, _, _ + 1 => none
  | fuel + 1, t, rem + 1 =>
    if wx t then
      match runSuspendable wx rate fuel (t + 1) rem with
      | some (e, c) => some (e, c + rate)
      | none => none
    else
      runSuspendable wx rate fuel (t + 1) (rem + 1)

/-- Number of hours with compliant weather among the n hours from t. -/
def countActive (wx : Nat → Bool) : Nat → Nat → Nat
  | _, 0 => 0
  | t, n + 1 => (if wx t then 1 else 0) + countActive wx (t + 1) n

theorem nextWindow_spec (wx : Nat → Bool) (len : Nat) :
    ∀ fuel t s, nextWindow wx len fuel t = some s →
      t ≤ s ∧ compliantWindow wx s len = true ∧
      ∀ u, t ≤ u → u < s → compliantWindow wx u len = false := by
  intro fuel
  induction fuel with
  | zero => intro t s h; exact absurd h (by simp [nextWindow])
  | succ fuel ih =>
    intro t s h
    unfold nextWindow at h
    cases hc : compliantWindow wx t len with
    | true =>
      rw [hc] at h
      simp only [if_true] at h
      have hs : t = s := by simpa using h
      refine ⟨Nat.le_of_eq hs, hs ▸ hc, ?_⟩
      intro u hu1 hu2
      exact absurd hu2 (by omega)
    | false =>
      rw [hc] at h
      simp only [Bool.false_eq_true, if_false] at h
      rcases ih (t + 1) s h with ⟨h1, h2, h3⟩
      refine ⟨by omega, h2, ?_⟩
      intro u hu1 hu2
      rcases Nat.eq_or_lt_of_le hu1 with heq | hlt
      · rw [← heq]; exact hc
      · exact h3 u (by omega) hu2

theorem runSuspendable_spec (wx : Nat → Bool) (rate : ℚ) :
    ∀ fuel t rem e c, runSuspendable wx rate fuel t rem = some (e, c) →
      c = rate * rem ∧ t + rem ≤ e ∧ countActive wx t (e - t) = rem := by
  intro fuel
  induction fuel with
  | zero =>
    intro t rem e c h
    cases rem with
    | zero =>
      simp only [runSuspendable, Option.some.injEq, Prod.mk.injEq] at h
      obtain ⟨he, hc⟩ := h
      subst he
      subst hc
      simp [countActive]
    | succ r => exact absurd h (by simp [runSuspendable])
  | succ fuel ih =>
    intro t rem e c h
    cases rem with
    | zero =>
      simp only [runSuspendable, Option.some.injEq, Prod.mk.injEq] at h
      obtain ⟨he, hc⟩ := h
      subst he
      subst hc
      simp [countActive]
    | succ r =>
      cases hw : wx t with
      | true =>
        simp only [runSuspendable, hw, if_true] at h
        cases hrec : runSuspendable wx rate fuel (t + 1) r with
        | none => rw [hrec] at h; exact absurd h (by simp)
        | some p =>
          obtain ⟨e0, c0⟩ := p
          rw [hrec] at h
          simp only [Option.some.injEq, Prod.mk.injEq] at h
          obtain ⟨he, hc⟩ := h
          rcases ih (t + 1) r e0 c0 hrec with ⟨h1, h2, h3⟩
          subst he
          refine ⟨?_, by omega, ?_⟩
          · rw [← hc, h1]
            push_cast
            ring
          · have hn : e0 - t = (e0 - (t + 1)) + 1 := by omega
            rw [hn]
            show (if wx t then 1 else 0) + countActive wx (t + 1) (e0 - (t + 1)) = r + 1
            rw [hw]
            show 1 + countActive wx (t + 1) (e0 - (t + 1)) = r + 1
            omega
      | false =>
        simp only [runSuspendable, hw, Bool.false_eq_true, if_false] at h
        rcases ih (t + 1) (r + 1) e c h with ⟨h1, h2, h3⟩
        refine ⟨h1, by omega, ?_⟩
        have hn : e - t = (e - (t + 1)) + 1 := by omega
        rw [hn]
        show (if wx t then 1 else 0) + countActive wx (t + 1) (e - (t + 1)) = r + 1
        rw [hw]
        show 0 + countActive wx (t + 1) (e - (t + 1)) = r + 1
        omega

/-- Claim C9: a task whose weather constraint is violated at its scheduled
start is, when non-suspendable, delayed in its entirety to the next
compliant interval and billed for its full nominal duration executed
without interruption; when suspendable, it pauses and resumes as the
constraint clears, and its cost covers exactly the active (non-waiting)
hours, which total its nominal duration. -/
theorem weather_gated_cost (wx : Nat → Bool) (rate : ℚ) (dur fuel t : Nat) :
    (∀ o, runNonSuspendable wx rate dur fuel t = some o →
      o.cost = rate * dur ∧ o.endTime = o.startTime + dur ∧
      compliantWindow wx o.startTime dur = true ∧ t ≤ o.startTime ∧
      (∀ u, t ≤ u → u < o.startTime → compliantWindow wx u dur = false)) ∧
    (∀ e c, runSuspendable wx rate fuel t dur = some (e, c) →
      c = rate * countActive wx t (e - t) ∧
      countActive wx t (e - t) = dur ∧ t + dur ≤ e) := by
  constructor
  · intro o h
    unfold runNonSuspendable at h
    cases hn : nextWindow wx dur fuel t with
    | none => rw [hn] at h; exact absurd h (by simp)
    | some s =>
      rw [hn] at h
      simp only [Option.some.injEq] at h
      subst h
      rcases nextWindow_spec wx dur fuel t s hn with ⟨h1, h2, h3⟩
      exact ⟨rfl, rfl, h2, h1, h3⟩
  · intro e c h
    rcases runSuspendable_spec wx rate fuel t dur e c h with ⟨h1, h2, h3⟩
    exact ⟨by rw [h1, h3], h3, h2⟩

/-- Weather series of the C9 witness: the bound is violated for the first
three hours and holds afterwards. -/
def c9Weather (t : Nat) : Bool := decide (3 ≤ t)

/-- Witness for claim C9: with weather compliant only from hour 3, a 2-hour
task at rate 100 scheduled at hour 0 runs, non-suspendably, in the block
hours 3 to 5 at cost 200 with hours 0, 1, 2 rejected; suspendably, it also
finishes at hour 5 at cost 200 with exactly 2 active hours. -/
theorem weather_gated_cost_witness :
    ((⟨3, 5, 200⟩ : TaskOutcome).cost = 100 * (2 : Nat) ∧
      (⟨3, 5, 200⟩ : TaskOutcome).endTime =
        (⟨3, 5, 200⟩ : TaskOutcome).startTime + 2 ∧
      compliantWindow c9Weather (⟨3, 5, 200⟩ : TaskOutcome).startTime 2 =
        true ∧
      0 ≤ (⟨3, 5, 200⟩ : TaskOutcome).startTime ∧
      (∀ u, 0 ≤ u → u < (⟨3, 5, 200⟩ : TaskOutcome).startTime →
        compliantWindow c9Weather u 2 = false)) ∧
    ((200 : ℚ) = 100 * countActive c9Weather 0 (5 - 0) ∧
      countActive c9Weather 0 (5 - 0) = 2 ∧ 0 + 2 ≤ 5) :=
  ⟨(weather_gated_cost c9Weather 100 2 10 0).1 ⟨3, 5, 200⟩ (by
      norm_num [runNonSuspendable, nextWindow, compliantWindow, c9Weather]),
   (weather_gated_cost c9Weather 100 2 10 0).2 5 200 (by
      norm_num [runSuspendable, c9Weather])⟩

/-- Modelled from the spec: a scheduled simulation event — the instant it is
due, its enqueue sequence number (FIFO tie-break), the acting agent and the
action label (§4.4, §5).  The implementing marmot environment (an internal
copy of simpy, changelog 0.5.x) is missing from the tree. -/
structure Event where
  time : ℚ
  seq : Nat
  agent : String
  label : String
deriving Repr, DecidableEq

/-- Scheduling order: earlier simulated time first, ties resolved by the
original enqueue order. -/
def eventLE (a b : Event) : Prop :=
  a.time < b.time ∨ (a.time = b.time ∧ a.seq ≤ b.seq)

instance (a b : Event) : Decidable (eventLE a b) := by
  unfold eventLE
  infer_instance

theorem eventLE_refl (a : Event) : eventLE a a := Or.inr ⟨rfl, le_refl _⟩

theorem eventLE_trans {a b c : Event} (h1 : eventLE a b) (h2 : eventLE b c) :
    eventLE a c := by
  rcases h1 with h1 | ⟨h1t, h1s⟩
  · rcases h2 with h2 | ⟨h2t, h2s⟩
    · exact Or.inl (lt_trans h1 h2)
    · exact Or.inl (h2t ▸ h1)
  · rcases h2 with h2 | ⟨h2t, h2s⟩
    · exact Or.inl (h1t ▸ h2)
    · exact Or.inr ⟨h1t.trans h2t, le_trans h1s h2s⟩

theorem eventLE_total (a b : Event) : eventLE a b ∨ eventLE b a := by
  rcases lt_trichotomy a.time b.time with h | h | h
  · exact Or.inl (Or.inl h)
  · rcases Nat.le_total a.seq b.seq with hs | hs
    · exact Or.inl (Or.inr ⟨h, hs⟩)
    · exact Or.inr (Or.inr ⟨h.symm, hs⟩)
  · exact Or.inr (Or.inl h)

theorem eventLE_time_le {a b : Event} (h : eventLE a b) : a.time ≤ b.time :=
  h.elim le_of_lt (fun h2 => le_of_eq h2.1)

theorem eventLE_of_le {a b : Event} (ht : a.time ≤ b.time)
    (hs : a.seq ≤ b.seq) : eventLE a b := by
  rcases lt_or_eq_of_le ht with h | h
  · exact Or.inl h
  · exact Or.inr ⟨h, hs⟩

/-- Select the scheduled event that is least in (time, enqueue order); the
rest of the queue is returned alongside. -/
def selectMin : List Event → Option (Event × List Event)
  | [] => none
  | e :: rest =>
    match selectMin rest with
    | none => some (e, [])
    | some (m, others) =>
      if eventLE e m then some (e, rest) else some (m, e :: others)

theorem selectMin_eq_none (l : List Event) :
    selectMin l = none ↔ l = [] := by
  cases l with
  | nil => simp [selectMin]
  | cons e rest =>
    simp only [selectMin]
    cases h : selectMin rest with
    | none => simp
    | some p =>
      obtain ⟨m, others⟩ := p
      by_cases hle : eventLE e m <;> simp [hle]

theorem selectMin_spec :
    ∀ (l : List Event) (e : Event) (rest : List Event),
      selectMin l = some (e, rest) →
      (e :: rest).Perm l ∧ ∀ x ∈ rest, eventLE e x := by
  intro l
  induction l with
  | nil => intro e rest h; exact absurd h (by simp [selectMin])
  | cons a l ih =>
    intro e rest h
    simp only [selectMin] at h
    cases hsel : selectMin l with
    | none =>
      rw [hsel] at h
      have hl : l = [] := (selectMin_eq_none l).mp hsel
      simp only [Option.some.injEq, Prod.mk.injEq] at h
      obtain ⟨he, hr⟩ := h
      subst he
      subst hr
      subst hl
      exact ⟨List.Perm.refl _, by simp⟩
    | some p =>
      obtain ⟨m, others⟩ := p
      rw [hsel] at h
      change (if eventLE a m then some (a, l)
        else some (m, a :: others)) = some (e, rest) at h
      rcases ih m others hsel with ⟨hperm, hmin⟩
      by_cases hle : eventLE a m
      · rw [if_pos hle] at h
        simp only [Option.some.injEq, Prod.mk.injEq] at h
        obtain ⟨he, hr⟩ := h
        subst he
        subst hr
        refine ⟨List.Perm.refl _, ?_⟩
        intro x hx
        have hx2 : x ∈ m :: others := hperm.mem_iff.mpr hx
        rcases List.mem_cons.mp hx2 with hxm | hxo
        · exact hxm ▸ hle
        · exact eventLE_trans hle (hmin x hxo)
      · rw [if_neg hle] at h
        simp only [Option.some.injEq, Prod.mk.injEq] at h
        obtain ⟨he, hr⟩ := h
        subst he
        subst hr
        have hma : eventLE m a := (eventLE_total a m).resolve_left hle
        constructor
        · exact List.Perm.trans (List.Perm.swap _ _ _)
            (List.Perm.cons _ hperm)
        · intro x hx
          rcases List.mem_cons.mp hx with hxa | hxo
          · exact hxa ▸ hma
          · exact hmin x hxo

/-- A follow-up scheduled by processing an event: a non-negative delay from
the current instant, the acting agent and the action label. -/
structure Followup where
  delay : ℚ
  agent : String
  label : String
deriving Repr, DecidableEq

/-- Enqueue follow-ups at the current instant plus their delays, assigning
consecutive fresh sequence numbers in order. -/
def enqueueAll (t : ℚ) : List Followup → Nat → List Event
  | [], _ => []
  | f :: fs, n => ⟨t + f.delay, n, f.agent, f.label⟩ :: enqueueAll t fs (n + 1)

theorem mem_enqueueAll (t : ℚ) :
    ∀ (fs : List Followup) (n : Nat) (x : Event), x ∈ enqueueAll t fs n →
      n ≤ x.seq ∧ x.seq < n + fs.length ∧ ∃ f ∈ fs, x.time = t + f.delay := by
  intro fs
  induction fs with
  | nil => intro n x hx; exact absurd hx (by simp [enqueueAll])
  | cons f fs ih =>
    intro n x hx
    simp only [enqueueAll, List.mem_cons] at hx
    rcases hx with hx | hx
    · subst hx
      exact ⟨le_refl n, by simp, f, List.mem_cons_self f fs, rfl⟩
    · rcases ih (n + 1) x hx with ⟨h1, h2, f2, hf2, ht⟩
      exact ⟨by omega, by simp; omega, f2, List.mem_cons_of_mem f hf2, ht⟩

/-- Modelled from the spec: the Simulation Environment state — the global
simulated clock, the next enqueue sequence number, the queue of pending
events and the structured action log (§4.4).  The implementing marmot
environment is missing from the tree. -/
structure SimState where
  now : ℚ
  nextSeq : Nat
  pending : List Event
  log : List Event
deriving Repr, DecidableEq

/-- Modelled from the spec: one scheduler step — take the pending event
least in (time, enqueue order), advance the clock to its instant, log it,
and enqueue the follow-ups its processing spawns with fresh sequence
numbers (§4.4 ordering guarantee, §5).  The implementing marmot event loop
is missing from the tree. -/
def step (prog : Event → List Followup) (s : SimState) : Option SimState :=
  match selectMin s.pending with
  | none => none
  | some (e, rest) =>
    some { now := e.time
         , nextSeq := s.nextSeq + (prog e).length
         , pending := rest ++ enqueueAll e.time (prog e) s.nextSeq
         , log := s.log ++ [e] }

/-- Run the scheduler for at most the given number of steps (the simulation
reaches quiescence when no event is pending). -/
def run (prog : Event → List Followup) : Nat → SimState → SimState
  | 0, s => s
  | fuel + 1, s =>
    match step prog s with
    | none => s
    | some s2 => run prog fuel s2

/-- Scheduler invariant: pending events lie at or after the clock and carry
already-issued sequence numbers; logged events lie at or before the clock;
every logged event is scheduled no later than every pending one; and the
log is ordered by (time, enqueue order). -/
def WellFormed (s : SimState) : Prop :=
  (∀ p ∈ s.pending, s.now ≤ p.time ∧ p.seq < s.nextSeq) ∧
  (∀ l ∈ s.log, l.time ≤ s.now ∧ l.seq < s.nextSeq) ∧
  (∀ l ∈ s.log, ∀ p ∈ s.pending, eventLE l p) ∧
  s.log.Pairwise eventLE

theorem step_wf (prog : Event → List Followup)
    (hdelay : ∀ e, ∀ f ∈ prog e, 0 ≤ f.delay) (s s2 : SimState)
    (hs : WellFormed s) (hstep : step prog s = some s2) : WellFormed s2 := by
  obtain ⟨hw1, hw2, hw3, hw4⟩ := hs
  unfold step at hstep
  cases hsel : selectMin s.pending with
  | none => rw [hsel] at hstep; exact absurd hstep (by simp)
  | some p =>
    obtain ⟨e, rest⟩ := p
    rw [hsel] at hstep
    simp only [Option.some.injEq] at hstep
    subst hstep
    obtain ⟨hperm, hmin⟩ := selectMin_spec s.pending e rest hsel
    have he_mem : e ∈ s.pending := hperm.subset (List.mem_cons_self e rest)
    have hrest_sub : ∀ x ∈ rest, x ∈ s.pending :=
      fun x hx => hperm.subset (List.mem_cons_of_mem e hx)
    have he_now : s.now ≤ e.time := (hw1 e he_mem).1
    have he_seq : e.seq < s.nextSeq := (hw1 e he_mem).2
    have henq : ∀ q ∈ enqueueAll e.time (prog e) s.nextSeq,
        e.time ≤ q.time ∧ s.nextSeq ≤ q.seq ∧
          q.seq < s.nextSeq + (prog e).length := by
      intro q hq
      rcases mem_enqueueAll e.time (prog e) s.nextSeq q hq with
        ⟨h1, h2, f, hf, ht⟩
      refine ⟨?_, h1, h2⟩
      rw [ht]
      have := hdelay e f hf
      linarith
    refine ⟨?_, ?_, ?_, ?_⟩
    · intro q hq
      rcases List.mem_append.mp hq with hq | hq
      · refine ⟨eventLE_time_le (hmin q hq), ?_⟩
        have := (hw1 q (hrest_sub q hq)).2
        show q.seq < s.nextSeq + (prog e).length
        omega
      · rcases henq q hq with ⟨h1, h2, h3⟩
        exact ⟨h1, h3⟩
    · intro x hx
      rcases List.mem_append.mp hx with hx | hx
      · rcases hw2 x hx with ⟨h1, h2⟩
        refine ⟨le_trans h1 he_now, ?_⟩
        show x.seq < s.nextSeq + (prog e).length
        omega
      · have hxe : x = e := by simpa using hx
        rw [hxe]
        refine ⟨le_refl _, ?_⟩
        show e.seq < s.nextSeq + (prog e).length
        omega
    · intro x hx q hq
      rcases List.mem_append.mp hx with hx | hx
      · rcases List.mem_append.mp hq with hq | hq
        · exact hw3 x hx q (hrest_sub q hq)
        · rcases henq q hq with ⟨hq1, hq2, -⟩
          rcases hw2 x hx with ⟨hx1, hx2⟩
          exact eventLE_of_le (le_trans hx1 (le_trans he_now hq1))
            (by omega)
      · have hxe : x = e := by simpa using hx
        rw [hxe]
        rcases List.mem_append.mp hq with hq | hq
        · exact hmin q hq
        · rcases henq q hq with ⟨hq1, hq2, -⟩
          exact eventLE_of_le hq1 (by omega)
    · rw [List.pairwise_append]
      refine ⟨hw4, by simp, ?_⟩
      intro x hx y hy
      have hye : y = e := by simpa using hy
      rw [hye]
      exact hw3 x hx e he_mem

theorem run_wf (prog : Event → List Followup)
    (hdelay : ∀ e, ∀ f ∈ prog e, 0 ≤ f.delay) :
    ∀ (fuel : Nat) (s : SimState), WellFormed s →
      WellFormed (run prog fuel s) := by
  intro fuel
  induction fuel with
  | zero => intro s h; exact h
  | succ fuel ih =>
    intro s h
    show WellFormed (match step prog s with
      | none => s
      | some s2 => run prog fuel s2)
    cases hstep : step prog s with
    | none => exact h
    | some s2 => exact ih s2 (step_wf prog hdelay s s2 h hstep)

/-- Claim C1: for a fixed configuration and weather series the simulation is
deterministic — equal initial environments yield equal action logs on every
run — because at any simulated instant the scheduler resolves all events due
at or before that instant in their original enqueue order (FIFO tie-break)
before the clock advances: the produced action log is ordered by
(time, enqueue order). -/
theorem action_log_deterministic_fifo (prog : Event → List Followup)
    (fuel : Nat) (s t : SimState)
    (hdelay : ∀ e, ∀ f ∈ prog e, 0 ≤ f.delay) (hwf : WellFormed s) :
    (s = t → run prog fuel s = run prog fuel t) ∧
    (run prog fuel s).log.Pairwise eventLE := by
  constructor
  · intro h
    rw [h]
  · exact (run_wf prog hdelay fuel s hwf).2.2.2

/-- Program of the C1 witness: processing an event spawns no follow-up. -/
def c1Prog : Event → List Followup := fun _ => []

/-- Initial environment of the C1 witness: two vessels mobilize at the same
instant, enqueued in order. -/
def c1State : SimState :=
  { now := 0, nextSeq := 2,
    pending := [⟨0, 0, "WTIV", "Mobilize"⟩, ⟨0, 1, "Feeder", "Mobilize"⟩],
    log := [] }

/-- Witness for claim C1: on the concrete two-vessel environment the run is
self-identical and its action log is ordered by (time, enqueue order). -/
theorem action_log_deterministic_fifo_witness :
    (c1State = c1State → run c1Prog 5 c1State = run c1Prog 5 c1State) ∧
    (run c1Prog 5 c1State).log.Pairwise eventLE :=
  action_log_deterministic_fifo c1Prog 5 c1State c1State
    (fun e f hf => absurd hf (List.not_mem_nil f))
    (by
      refine ⟨?_, ?_, ?_, ?_⟩ <;>
        simp [c1State, eventLE])

/-- Modelled from the spec: a Design phase, identified by its registered
name, together with the names of the Design phases whose outputs its
declared inputs depend on (§4.5 run()).  The implementing design-phase
classes and ProjectManager.run are missing from the tree. -/
structure DesignDecl where
  name : String
  deps : List String
deriving Repr, DecidableEq

/-- The registered names of a list of Design phases. -/
def designNames (phases : List DesignDecl) : List String :=
  phases.map (fun d => d.name)

/-- A Design phase is schedulable when each of its declared dependencies has
already run or is not a Design phase of this project. -/
def schedulable (allNames done : List String) (d : DesignDecl) : Bool :=
  d.deps.all (fun dep => done.contains dep || !allNames.contains dep)

/-- Extract the first list element satisfying the predicate, keeping the
remaining elements in order. -/
def extractFirst (p : DesignDecl → Bool) :
    List DesignDecl → Option (DesignDecl × List DesignDecl)
  | [] => none
  | d :: rest =>
    if p d then some (d, rest)
    else
      match extractFirst p rest with
      | some (x, xs) => some (x, d :: xs)
      | none => none

/-- Modelled from the spec: the dependency-ordering loop of `run()` — take
the first schedulable Design phase, in list order; if none is schedulable
while phases remain, the dependency graph has a cycle and a fatal
configuration error is raised before any phase runs (§4.5, §7).  The
implementing resolution in ProjectManager is missing from the tree. -/
def resolveLoop (allNames : List String) :
    Nat → List String → List DesignDecl →
      Except OrbitError (List DesignDecl)
  | _, _, [] => .ok []
  | 0, _, _ :: _ => .error .designCycle
  | fuel + 1, done, remaining =>
    match extractFirst (schedulable allNames done) remaining with
    | none => .error .designCycle
    | some (d, rest) =>
      match resolveLoop allNames fuel (d.name :: done) rest with
      | .ok order => .ok (d :: order)
      | .error err => .error err

/-- Resolve the execution order of the Design phases. -/
def resolveDesignOrder (phases : List DesignDecl) :
    Except OrbitError (List DesignDecl) :=
  resolveLoop (designNames phases) phases.length [] phases

/-- Modelled from the spec: `run()` executes all Design phases first, in
resolved dependency order, then the Installation phases; the execution
trace tags each phase name with whether it is a Design phase (§4.5).  The
implementing ProjectManager.run is missing from the tree. -/
def runProject (designs : List DesignDecl) (installs : List String) :
    Except OrbitError (List (String × Bool)) :=
  match resolveDesignOrder designs with
  | .ok order =>
    .ok (order.map (fun d => (d.name, true)) ++
      installs.map (fun n => (n, false)))
  | .error err => .error err

/-- An execution order respects dependencies: each phase's in-project
dependencies have all run before it. -/
def depRespecting (allNames : List String) :
    List String → List DesignDecl → Prop
  | _, [] => True
  | done, d :: rest =>
    (∀ dep ∈ d.deps, dep ∈ done ∨ dep ∉ allNames) ∧
      depRespecting allNames (d.name :: done) rest

theorem extractFirst_spec (p : DesignDecl → Bool) :
    ∀ (l : List DesignDecl) (d : DesignDecl) (rest : List DesignDecl),
      extractFirst p l = some (d, rest) →
      p d = true ∧ (d :: rest).Perm l := by
  intro l
  induction l with
  | nil => intro d rest h; exact absurd h (by simp [extractFirst])
  | cons a l ih =>
    intro d rest h
    simp only [extractFirst] at h
    by_cases hp : p a
    · rw [if_pos hp] at h
      simp only [Option.some.injEq, Prod.mk.injEq] at h
      obtain ⟨h1, h2⟩ := h
      subst h1
      subst h2
      exact ⟨hp, List.Perm.refl _⟩
    · rw [if_neg hp] at h
      cases hrec : extractFirst p l with
      | none => rw [hrec] at h; exact absurd h (by simp)
      | some q =>
        obtain ⟨x, xs⟩ := q
        rw [hrec] at h
        simp only [Option.some.injEq, Prod.mk.injEq] at h
        obtain ⟨h1, h2⟩ := h
        subst h1
        subst h2
        rcases ih x xs hrec with ⟨hx, hperm⟩
        exact ⟨hx, List.Perm.trans (List.Perm.swap _ _ _)
          (List.Perm.cons _ hperm)⟩

theorem resolveLoop_ok (allNames : List String) :
    ∀ (fuel : Nat) (done : List String) (remaining order : List DesignDecl),
      resolveLoop allNames fuel done remaining = .ok order →
      order.Perm remaining ∧ depRespecting allNames done order := by
  intro fuel
  induction fuel with
  | zero =>
    intro done remaining order h
    cases remaining with
    | nil =>
      simp only [resolveLoop, Except.ok.injEq] at h
      subst h
      exact ⟨List.Perm.refl _, trivial⟩
    | cons d rest => exact absurd h (by simp [resolveLoop])
  | succ fuel ih =>
    intro done remaining order h
    cases remaining with
    | nil =>
      simp only [resolveLoop, Except.ok.injEq] at h
      subst h
      exact ⟨List.Perm.refl _, trivial⟩
    | cons a rem =>
      simp only [resolveLoop] at h
      cases hext : extractFirst (schedulable allNames done) (a :: rem) with
      | none => rw [hext] at h; exact absurd h (by simp)
      | some q =>
        obtain ⟨d, rest⟩ := q
        rw [hext] at h
        change (match resolveLoop allNames fuel (d.name :: done) rest with
          | Except.ok o => Except.ok (d :: o)
          | Except.error e2 => Except.error e2) = Except.ok order at h
        cases hrec : resolveLoop allNames fuel (d.name :: done) rest with
        | error err => rw [hrec] at h; exact absurd h (by simp)
        | ok suborder =>
          rw [hrec] at h
          simp only [Except.ok.injEq] at h
          subst h
          rcases extractFirst_spec _ _ d rest hext with ⟨hsched, hperm⟩
          rcases ih (d.name :: done) rest suborder hrec with ⟨hp2, hd2⟩
          refine ⟨List.Perm.trans (List.Perm.cons d hp2) hperm, ?_, hd2⟩
          intro dep hdep
          have := List.all_eq_true.mp hsched dep hdep
          rcases Bool.or_eq_true_iff.mp this with h1 | h1
          · exact Or.inl (by simpa using h1)
          · exact Or.inr (by simpa using h1)

theorem resolveLoop_error (allNames : List String) :
    ∀ (fuel : Nat) (done : List String) (remaining : List DesignDecl)
      (err : OrbitError),
      resolveLoop allNames fuel done remaining = .error err →
      err = .designCycle := by
  intro fuel
  induction fuel with
  | zero =>
    intro done remaining err h
    cases remaining with
    | nil => exact absurd h (by simp [resolveLoop])
    | cons d rest =>
      simp only [resolveLoop, Except.error.injEq] at h
      exact h.symm
  | succ fuel ih =>
    intro done remaining err h
    cases remaining with
    | nil => exact absurd h (by simp [resolveLoop])
    | cons a rem =>
      simp only [resolveLoop] at h
      cases hext : extractFirst (schedulable allNames done) (a :: rem) with
      | none =>
        rw [hext] at h
        simp only [Except.error.injEq] at h
        exact h.symm
      | some q =>
        obtain ⟨d, rest⟩ := q
        rw [hext] at h
        change (match resolveLoop allNames fuel (d.name :: done) rest with
          | Except.ok o => Except.ok (d :: o)
          | Except.error e2 => Except.error e2) = Except.error err at h
        cases hrec : resolveLoop allNames fuel (d.name :: done) rest with
        | error err2 =>
          rw [hrec] at h
          simp only [Except.error.injEq] at h
          subst h
          exact ih (d.name :: done) rest err2 hrec
        | ok suborder => rw [hrec] at h; exact absurd h (by simp)

theorem resolveDesignOrder_of_independent (designs : List DesignDecl)
    (hfree : ∀ d ∈ designs, ∀ dep ∈ d.deps, dep ∉ designNames designs) :
    resolveDesignOrder designs = .ok designs := by
  unfold resolveDesignOrder
  have key : ∀ (fuel : Nat) (done : List String)
      (remaining : List DesignDecl), remaining.length ≤ fuel →
      (∀ d ∈ remaining, ∀ dep ∈ d.deps, dep ∉ designNames designs) →
      resolveLoop (designNames designs) fuel done remaining =
        .ok remaining := by
    intro fuel
    induction fuel with
    | zero =>
      intro done remaining hlen _
      cases remaining with
      | nil => rfl
      | cons d rest => exact absurd hlen (by simp)
    | succ fuel ih =>
      intro done remaining hlen hrem
      cases remaining with
      | nil => rfl
      | cons d rest =>
        have hsched : schedulable (designNames designs) done d = true := by
          unfold schedulable
          rw [List.all_eq_true]
          intro dep hdep
          have := hrem d (List.mem_cons_self d rest) dep hdep
          simp [this]
        have htail : ∀ x ∈ rest, ∀ dep ∈ x.deps, dep ∉ designNames designs :=
          fun x hx dep hdep => hrem x (List.mem_cons_of_mem d hx) dep hdep
        have hlen2 : rest.length ≤ fuel := by
          simp only [List.length_cons] at hlen
          omega
        simp only [resolveLoop, extractFirst, if_pos hsched]
        rw [ih (d.name :: done) rest hlen2 htail]
  exact key designs.length [] designs (le_refl _) hfree

/-- Phase named a declares an input depending on phase named b. -/
def dependsOn (phases : List DesignDecl) (a b : String) : Prop :=
  ∃ d ∈ phases, d.name = a ∧ b ∈ d.deps

/-- A dependency cycle among the Design phases: a nonempty chain of
project phase names, each depending on the next, closing back on its
head. -/
def IsCycle (phases : List DesignDecl) : List String → Prop
  | [] => False
  | x :: rest =>
    (∀ y ∈ x :: rest, y ∈ designNames phases) ∧
    List.Chain (dependsOn phases) x rest ∧
    dependsOn phases ((x :: rest).getLast (by simp)) x

theorem chain_succ_or_last (r : String → String → Prop) :
    ∀ (rest : List String) (x : String), List.Chain r x rest →
      ∀ a ∈ x :: rest, a = (x :: rest).getLast (by simp) ∨
        ∃ b ∈ x :: rest, r a b := by
  intro rest
  induction rest with
  | nil =>
    intro x _ a ha
    left
    have : a = x := by simpa using ha
    simpa using this
  | cons y ys ih =>
    intro x hchain a ha
    rcases List.chain_cons.mp hchain with ⟨hxy, hchain2⟩
    rcases List.mem_cons.mp ha with hax | ha2
    · right
      exact ⟨y, by simp, hax ▸ hxy⟩
    · rcases ih y hchain2 a ha2 with hlast | ⟨b, hb, hr⟩
      · left
        rw [hlast, List.getLast_cons_cons]
      · right
        exact ⟨b, List.mem_cons_of_mem x hb, hr⟩

theorem cycle_mem_succ (phases : List DesignDecl) (c : List String)
    (hc : IsCycle phases c) :
    ∀ a ∈ c, ∃ b ∈ c, dependsOn phases a b := by
  cases c with
  | nil => exact absurd hc (by simp [IsCycle])
  | cons x rest =>
    obtain ⟨hmem, hchain, hclose⟩ := hc
    intro a ha
    rcases chain_succ_or_last (dependsOn phases) rest x hchain a ha with
      hlast | h
    · refine ⟨x, List.mem_cons_self _ _, ?_⟩
      rw [hlast]
      exact hclose
    · exact h

theorem depRespecting_blocks_cycle (phases : List DesignDecl)
    (cm : List String)
    (hcm_names : ∀ x ∈ cm, x ∈ designNames phases)
    (hnamesInj : ∀ d1 ∈ phases, ∀ d2 ∈ phases, d1.name = d2.name → d1 = d2) :
    ∀ (order : List DesignDecl) (done : List String),
      depRespecting (designNames phases) done order →
      (∀ x ∈ order, x ∈ phases) →
      (∀ x ∈ done, x ∉ cm) →
      (∀ a ∈ cm, ∃ d ∈ order, d.name = a ∧ ∃ b ∈ cm, b ∈ d.deps) →
      cm = [] := by
  intro order
  induction order with
  | nil =>
    intro done _ _ _ hwit
    cases hcm : cm with
    | nil => rfl
    | cons a as =>
      rcases hwit a (by rw [hcm]; exact List.mem_cons_self a as) with
        ⟨d, hd, -⟩
      exact absurd hd (by simp)
  | cons d rest ih =>
    intro done hdep hsub hdone hwit
    obtain ⟨hd1, hd2⟩ := hdep
    by_cases hmemcm : d.name ∈ cm
    · rcases hwit d.name hmemcm with ⟨d2, hd2mem, hd2name, b, hbcm, hbdep⟩
      have hd2eq : d2 = d := by
        rcases List.mem_cons.mp hd2mem with h | h
        · exact h
        · exact hnamesInj d2 (hsub d2 (List.mem_cons_of_mem d h)) d
            (hsub d (List.mem_cons_self d rest)) hd2name
      rw [hd2eq] at hbdep
      rcases hd1 b hbdep with hbdone | hbnot
      · exact absurd hbcm (hdone b hbdone)
      · exact absurd (hcm_names b hbcm) hbnot
    · refine ih (d.name :: done) hd2
        (fun x hx => hsub x (List.mem_cons_of_mem d hx)) ?_ ?_
      · intro x hx
        rcases List.mem_cons.mp hx with h | h
        · rw [h]
          exact hmemcm
        · exact hdone x h
      · intro a ha
        rcases hwit a ha with ⟨d2, hd2mem, hd2name, hb⟩
        rcases List.mem_cons.mp hd2mem with h | h
        · exfalso
          apply hmemcm
          rw [h] at hd2name
          rw [hd2name]
          exact ha
        · exact ⟨d2, h, hd2name, hb⟩

theorem designNames_nodup_inj (phases : List DesignDecl)
    (hnodup : (designNames phases).Nodup) :
    ∀ d1 ∈ phases, ∀ d2 ∈ phases, d1.name = d2.name → d1 = d2 := by
  exact List.inj_on_of_nodup_map hnodup

theorem runProject_designs_first (designs : List DesignDecl)
    (installs : List String) (trace : List (String × Bool))
    (h : runProject designs installs = .ok trace) :
    ∀ i j (hi : i < trace.length) (hj : j < trace.length), i ≤ j →
      (trace.get ⟨j, hj⟩).2 = true → (trace.get ⟨i, hi⟩).2 = true := by
  unfold runProject at h
  cases hres : resolveDesignOrder designs with
  | error err => rw [hres] at h; exact absurd h (by simp)
  | ok order =>
    rw [hres] at h
    simp only [Except.ok.injEq] at h
    intro i j hi hj hij hjt
    subst h
    by_cases hjd : j < (order.map (fun d => (d.name, true))).length
    · have hid : i < (order.map (fun d => (d.name, true))).length :=
        lt_of_le_of_lt hij hjd
      rw [List.get_eq_getElem, List.getElem_append_left hid]
      simp
    · push_neg at hjd
      exfalso
      rw [List.get_eq_getElem, List.getElem_append_right hjd] at hjt
      simp at hjt

/-- Claim C8: `run()` executes all Design phases before any Installation
phase; the resolved design order is a permutation of the design_phases list
in which every phase whose declared inputs depend on another Design phase
of the project runs after that dependency; a list whose phases have no
in-project dependencies runs exactly in list order; and a dependency cycle
among Design phases is a fatal configuration error raised before any phase
runs. -/
theorem design_phase_execution_order (designs : List DesignDecl)
    (installs : List String) (trace : List (String × Bool))
    (order : List DesignDecl) (c : List String) :
    (runProject designs installs = .ok trace →
      ∀ i j (hi : i < trace.length) (hj : j < trace.length), i ≤ j →
        (trace.get ⟨j, hj⟩).2 = true → (trace.get ⟨i, hi⟩).2 = true) ∧
    (resolveDesignOrder designs = .ok order →
      order.Perm designs ∧ depRespecting (designNames designs) [] order) ∧
    ((∀ d ∈ designs, ∀ dep ∈ d.deps, dep ∉ designNames designs) →
      resolveDesignOrder designs = .ok designs) ∧
    (IsCycle designs c → (designNames designs).Nodup →
      resolveDesignOrder designs = .error .designCycle ∧
      runProject designs installs = .error .designCycle) := by
  refine ⟨?_, ?_, ?_, ?_⟩
  · exact runProject_designs_first designs installs trace
  · intro h
    exact resolveLoop_ok (designNames designs) designs.length [] designs
      order h
  · exact resolveDesignOrder_of_independent designs
  · intro hcyc hnodup
    have hres : resolveDesignOrder designs = .error .designCycle := by
      cases hres2 : resolveDesignOrder designs with
      | ok order2 =>
        exfalso
        rcases resolveLoop_ok (designNames designs) designs.length []
          designs order2 hres2 with ⟨hperm, hdeporder⟩
        have hcm_names : ∀ x ∈ c, x ∈ designNames designs := by
          cases c with
          | nil => intro x hx; exact absurd hx (by simp)
          | cons y ys => exact hcyc.1
        have hwit : ∀ a ∈ c, ∃ d ∈ order2, d.name = a ∧
            ∃ b ∈ c, b ∈ d.deps := by
          intro a ha
          rcases cycle_mem_succ designs c hcyc a ha with
            ⟨b, hbc, d, hdmem, hdname, hbdep⟩
          exact ⟨d, hperm.mem_iff.mpr hdmem, hdname, b, hbc, hbdep⟩
        have hcnil := depRespecting_blocks_cycle designs c hcm_names
          (designNames_nodup_inj designs hnodup) order2 [] hdeporder
          (fun x hx => hperm.subset hx) (by simp) hwit
        cases hc2 : c with
        | nil =>
          rw [hc2] at hcyc
          exact hcyc
        | cons y ys =>
          rw [hc2] at hcnil
          exact absurd hcnil (by simp)
      | error err =>
        have := resolveLoop_error (designNames designs) designs.length []
          designs err hres2
        rw [this]
    refine ⟨hres, ?_⟩
    unfold runProject
    rw [hres]

/-- Independent design phase of the C8 witness. -/
def c8DesignA : DesignDecl := { name := "MonopileDesign", deps := [] }

/-- Dependent design phase of the C8 witness: its inputs depend on the
monopile design's outputs. -/
def c8DesignB : DesignDecl :=
  { name := "ArraySystemDesign", deps := ["MonopileDesign"] }

/-- First phase of the cyclic C8 witness pair. -/
def c8CycX : DesignDecl := { name := "X", deps := ["Y"] }

/-- Second phase of the cyclic C8 witness pair. -/
def c8CycY : DesignDecl := { name := "Y", deps := ["X"] }

/-- Witness for claim C8: listing the dependent phase first, resolution
reorders it after its dependency (a dependency-respecting permutation), and
the two mutually dependent phases are rejected as a cycle before any phase
runs. -/
theorem design_phase_execution_order_witness :
    (([c8DesignA, c8DesignB] : List DesignDecl).Perm
        [c8DesignB, c8DesignA] ∧
      depRespecting (designNames [c8DesignB, c8DesignA]) []
        [c8DesignA, c8DesignB]) ∧
    (resolveDesignOrder [c8CycX, c8CycY] = .error .designCycle ∧
      runProject [c8CycX, c8CycY] ["TurbineInstallation"] =
        .error .designCycle) := by
  constructor
  · exact (design_phase_execution_order [c8DesignB, c8DesignA] [] []
      [c8DesignA, c8DesignB] []).2.1 (by rfl)
  · refine (design_phase_execution_order [c8CycX, c8CycY]
      ["TurbineInstallation"] [] [] ["X", "Y"]).2.2.2 ?_ (by decide)
    refine ⟨?_, ?_, ?_⟩
    · intro y hy
      simp [designNames, c8CycX, c8CycY]
      simp at hy
      rcases hy with h | h
      · exact Or.inl h
      · exact Or.inr h
    · refine List.Chain.cons ?_ List.Chain.nil
      exact ⟨c8CycX, by simp, rfl, by simp [c8CycX]⟩
    · exact ⟨c8CycY, by simp, rfl, by simp [c8CycY]⟩

end Orbit
